import Mathlib

/-!
# Lingua-Lens content engine: shallow embedding and verification

Embedding of the incremental text-segmentation and in-place DOM rewriting
engine of the Lingua-Lens browser extension (content script).  Text is
modelled as `List Char`; the compiled regex chunks
`\b(w1|w2|...)\b` (flags `gi`, learn mode) and `(w1|w2|...)` (flags `g`,
practice mode) are modelled by an executable literal-alternation matcher
with explicit case-folding and word-boundary flags.
-/

namespace LinguaLens

/-- A word (vocabulary key, alternative of a compiled alternation chunk),
as a character list. -/
abbrev Word := List Char

/-- A match span as built in `replaceTextNode`:
`{ text: match[0], index: match.index, endIndex: pattern.lastIndex }`. -/
structure Span where
  text : Word
  index : Nat
  endIndex : Nat
deriving Repr, DecidableEq, Inhabited

/-- `text.slice(a, b)` on character lists. -/
def sliceL (t : List Char) (a b : Nat) : List Char :=
  (t.drop a).take (b - a)

/-- JS `\w` character class: `[A-Za-z0-9_]`. -/
def isWordChar (c : Char) : Bool :=
  c.isAlphanum || c == '_'

/-- ASCII case folding, modelling the `i` regex flag. -/
def lowerList (w : Word) : Word :=
  w.map Char.toLower

/-- Is the character at position `p` of `t` a word character
(out-of-range positions count as non-word)? -/
def wordAt (t : List Char) (p : Nat) : Bool :=
  match t.get? p with
  | some c => isWordChar c
  | none => false

/-- JS regex `\b` at position `p`: exactly one of the neighbouring
positions `p-1`, `p` holds a word character. -/
def boundaryB (t : List Char) (p : Nat) : Bool :=
  ((p != 0) && wordAt t (p - 1)) != wordAt t p

/-- Literal match of alternative `w` at position `p` of `t`;
`ci` selects case-insensitive comparison (`i` flag).  Equality of the
taken slice with `w` forces the slice to have full length `w.length`,
so a match never runs past the end of `t`. -/
def litMatch (ci : Bool) (w : Word) (t : List Char) (p : Nat) : Bool :=
  if ci then lowerList ((t.drop p).take w.length) == lowerList w
  else (t.drop p).take w.length == w

/-- One attempt of the alternation at position `p`: with `wb` set the
leading `\b` must hold at `p` and the trailing `\b` after the chosen
alternative; alternatives are tried left to right (JS alternation is
first-match, not longest-match). -/
def tryAlternation (ci wb : Bool) (alts : List Word) (t : List Char) (p : Nat) :
    Option Word :=
  if wb && !boundaryB t p then none
  else alts.find? fun w => litMatch ci w t p && (!wb || boundaryB t (p + w.length))

/-- The `while ((match = pattern.exec(text)) !== null)` loop: scan
positions left to right from `p`, emitting a span and resuming at the
match end.  `fuel` bounds the iteration count (`t.length + 1` suffices
for non-empty alternatives). -/
def findFrom (ci wb : Bool) (alts : List Word) (t : List Char) :
    Nat → Nat → List Span
  | 0, _ => []
  | fuel + 1, p =>
    if p > t.length then []
    else
      match tryAlternation ci wb alts t p with
      | some w =>
        { text := (t.drop p).take w.length, index := p, endIndex := p + w.length } ::
          findFrom ci wb alts t fuel (p + w.length)
      | none => findFrom ci wb alts t fuel (p + 1)

/-- All matches of one compiled chunk in `text`, in increasing position
order (learn mode: `new RegExp(..., 'gi')` with `\b` anchors). -/
def findMatches (alts : List Word) (t : List Char) : List Span :=
  findFrom true true alts t (t.length + 1) 0

/-- Collect all matches of all chunks, per the
`for (const pattern of patternsArray) { ... pattern.exec ... }` loop of
`replaceTextNode`. -/
def collectMatches (patterns : List (List Word)) (t : List Char) : List Span :=
  patterns.flatMap fun alts => findMatches alts t

/-- Comparison used by `matches.sort((a, b) => a.index - b.index)`. -/
def spanLE (a b : Span) : Prop := a.index ≤ b.index

instance : DecidableRel spanLE := fun a b => Nat.decLe a.index b.index

instance : IsTotal Span spanLE := ⟨fun a b => Nat.le_total a.index b.index⟩

instance : IsTrans Span spanLE := ⟨fun _ _ _ => Nat.le_trans⟩

/-- `matches.sort((a, b) => a.index - b.index)`: a stable sort by start
offset (insertion sort is stable, as is JS `Array.prototype.sort`). -/
def sortSpans (l : List Span) : List Span :=
  l.insertionSort spanLE

/-- The overlap-removal loop of `replaceTextNode`: keep a match iff its
start offset is at least the end offset of the last kept match
(`current.index >= uniqueMatches[uniqueMatches.length - 1].endIndex`).
`e` is the end offset of the last kept match, initially `0` (the first
match is always kept, as `0 ≤ index`). -/
def resolveAux (e : Nat) : List Span → List Span
  | [] => []
  | x :: xs => if e ≤ x.index then x :: resolveAux x.endIndex xs else resolveAux e xs

/-- `uniqueMatches` computation: drop any match whose start offset lies
strictly before the end offset of the previously kept match. -/
def resolveOverlaps (l : List Span) : List Span :=
  resolveAux 0 l

/-- The full match-scanner for one text block (lines 1533–1553 of the
content script): collect matches of every chunk, stably sort by start
offset, and resolve overlaps first-match-wins. -/
def scanText (patterns : List (List Word)) (t : List Char) : List Span :=
  resolveOverlaps (sortSpans (collectMatches patterns t))

/-! ## Compound resolver (`findCompound`, compound-words module) -/

/-- Association lookup, modelling `CompoundWords[key] || null` and
`knownWords[key]` object-property access. -/
def lookupAssoc (l : List (Word × α)) (k : Word) : Option α :=
  (l.find? fun p => decide (p.1 = k)).map fun p => p.2

/-- Result of `findCompound`:
`{compound, translation, length /- words consumed -/}`. -/
structure FCResult where
  compound : Word
  translation : Word
  length : Nat
deriving Repr, DecidableEq

/-- The `for (let len = lookahead; len >= 1; len--)` loop of
`findCompound`: try the longest concatenation first.  At loop value
`len`, the candidate is `words.slice(startIndex, startIndex + len + 1).join('')`,
guarded by `startIndex + len < words.length`. -/
def findCompoundAux (dict : List (Word × Word)) (words : List Word)
    (startIndex : Nat) : Nat → Option FCResult
  | 0 => none
  | len + 1 =>
    if startIndex + (len + 1) < words.length then
      match lookupAssoc dict (((words.drop startIndex).take (len + 2)).flatten) with
      | some tr => some ⟨((words.drop startIndex).take (len + 2)).flatten, tr, len + 2⟩
      | none => findCompoundAux dict words startIndex len
    else findCompoundAux dict words startIndex len

/-- `findCompound(words, startIndex, lookahead = 2)` of the
compound-words module. -/
def findCompound (dict : List (Word × Word)) (words : List Word)
    (startIndex : Nat) (lookahead : Nat := 2) : Option FCResult :=
  findCompoundAux dict words startIndex lookahead

/-- Modelled from the spec's words for the refinement check of the
resolver: "check 3-word-then-2-word-then-no-compound against the static
compound dictionary (longest compound preferred)", never looking more
than 2 tokens ahead of `startIndex`. -/
def findCompoundSpec (dict : List (Word × Word)) (words : List Word)
    (startIndex : Nat) : Option FCResult :=
  let w3 := ((words.drop startIndex).take 3).flatten
  let w2 := ((words.drop startIndex).take 2).flatten
  let two : Option FCResult :=
    if startIndex + 1 < words.length then
      match lookupAssoc dict w2 with
      | some tr => some ⟨w2, tr, 2⟩
      | none => none
    else none
  if startIndex + 2 < words.length then
    match lookupAssoc dict w3 with
    | some tr => some ⟨w3, tr, 3⟩
    | none => two
  else two

/-! ## Replacement-fragment construction (`replaceTextNode`) -/

/-- A vocabulary entry value: `knownWords[key] = { translation, ... }`
(other fields are opaque to the rewriting engine). -/
structure WordData where
  translation : Word
deriving Repr, DecidableEq

/-- The vocabulary mapping (`knownWords`), keys already lowercased. -/
abbrev VocabMap := List (Word × WordData)

/-- One child of the replacement `DocumentFragment`: a plain text run
(`document.createTextNode(...)`) or a generated interactive unit (the
`span.lang-learner-translated` element).  `covStart`/`covEnd` record the
region of the original text that the unit replaces — the values of
`currentMatch.index` and of `lastIndex` right after the unit is emitted
in the source — and `origAttr` is the unit's `data-original` attribute
value, `transl` its `textContent`. -/
inductive FragItem where
  | plain (s : List Char)
  | unit (covStart covEnd : Nat) (origAttr transl : Word)
deriving Repr, DecidableEq

/-- The translations gathered for compound lookup from the (at most two)
following matches: `for (let j = i + 1; j < uniqueMatches.length && j <= i + 2; j++)`,
keeping only those whose lowercased text is a known word. -/
def nextTranslations (kw : VocabMap) (u : List Span) (i : Nat) : List Word :=
  ((u.drop (i + 1)).take 2).filterMap fun s =>
    (lookupAssoc kw (lowerList s.text)).map fun d => d.translation

/-- `originalText.slice(lastIndex)` tail emission after the match loop. -/
def finalPlain (t : List Char) (lastIndex : Nat) : List FragItem :=
  if lastIndex < t.length then [FragItem.plain (sliceL t lastIndex t.length)] else []

/-- The `if (currentMatch.index > lastIndex)` plain-run emission before
a generated unit. -/
def gapPlain (t : List Char) (lastIndex curIndex : Nat) : List FragItem :=
  if lastIndex < curIndex then [FragItem.plain (sliceL t lastIndex curIndex)] else []

/-- The indices the compound branch adds to `processedIndices`:
`for (let j = i; j < i + compoundLength && j < uniqueMatches.length; j++)`. -/
def compoundConsumed (u : List Span) (i L : Nat) : List Nat :=
  (List.range' i L).filter fun j => j < u.length

/-- The `data-original` attribute of a compound unit:
`originalWords.join(' ')` over the consumed matches' surface texts. -/
def compoundOrig (u : List Span) (i L : Nat) : Word :=
  List.intercalate [' ']
    ((compoundConsumed u i L).filterMap fun j => (u.get? j).map fun s => s.text)

/-- `uniqueMatches[i + compoundLength - 1].endIndex`, the new `lastIndex`
after a compound unit (the source indexes without a bounds check; the
index is in range in every reachable state, see
`claim_C2_fragment_reconstructs`). -/
def compoundEnd (u : List Span) (i L : Nat) : Nat :=
  (u.getD (i + L - 1) default).endIndex

/-- The compound-aware match loop of `replaceTextNode`
(lines 1556–1679), iterating `i` over `uniqueMatches` with the
`processedIndices` set, `lastIndex`, and the accumulated fragment.
`fuel` equals the number of remaining loop iterations
(`u.length - i` at every call).  The source indexes
`uniqueMatches[i + compoundLength - 1]` without a bounds check; it is
always in range (proved below), and the model uses `getD` with a
default. -/
def buildLoop (kw : VocabMap) (dict : List (Word × Word)) (u : List Span)
    (t : List Char) :
    Nat → Nat → Nat → List Nat → List FragItem → List FragItem
  | 0, _, lastIndex, _, acc => acc ++ finalPlain t lastIndex
  | fuel + 1, i, lastIndex, processed, acc =>
    if hi : i < u.length then
      if i ∈ processed then buildLoop kw dict u t fuel (i + 1) lastIndex processed acc
      else
        match lookupAssoc kw (lowerList (u.get ⟨i, hi⟩).text) with
        | none => buildLoop kw dict u t fuel (i + 1) lastIndex processed acc
        | some wd =>
          match (if (wd.translation :: nextTranslations kw u i).length > 1 then
              findCompound dict (wd.translation :: nextTranslations kw u i) 0 2
            else none) with
          | some res =>
            buildLoop kw dict u t fuel (i + 1) (compoundEnd u i res.length)
              (processed ++ compoundConsumed u i res.length)
              (acc ++ gapPlain t lastIndex (u.get ⟨i, hi⟩).index ++
                [FragItem.unit (u.get ⟨i, hi⟩).index (compoundEnd u i res.length)
                  (compoundOrig u i res.length) res.translation])
          | none =>
            buildLoop kw dict u t fuel (i + 1) (u.get ⟨i, hi⟩).endIndex
              (processed ++ [i])
              (acc ++ gapPlain t lastIndex (u.get ⟨i, hi⟩).index ++
                [FragItem.unit (u.get ⟨i, hi⟩).index (u.get ⟨i, hi⟩).endIndex
                  (u.get ⟨i, hi⟩).text wd.translation])
    else acc ++ finalPlain t lastIndex

/-- The children of the replacement `DocumentFragment` that
`replaceTextNode` builds for text `t` from the resolved match list `u`
(compound support loaded, i.e. `window.findCompound` present).  When `u`
is empty the compound branch is not taken and the fall-back loop emits
the whole text as a single plain run, which coincides with
`buildLoop` at fuel `0`. -/
def replaceTextNodeFragment (kw : VocabMap) (dict : List (Word × Word))
    (t : List Char) (u : List Span) : List FragItem :=
  buildLoop kw dict u t u.length 0 0 [] []

/-- The original-text region an item accounts for: plain runs stand for
themselves, a unit stands for the slice of the original text it
replaces. -/
def renderOriginal (t : List Char) : FragItem → List Char
  | FragItem.plain s => s
  | FragItem.unit s e _ _ => sliceL t s e

/-- The plain text runs of a fragment, in order. -/
def plainRuns (items : List FragItem) : List (List Char) :=
  items.filterMap fun it =>
    match it with
    | FragItem.plain s => some s
    | FragItem.unit _ _ _ _ => none

/-- The parts of `t` lying outside the spans of `u` (the gap before each
span, plus the tail after the last span), concatenated in order. -/
def gapsConcat (t : List Char) (u : List Span) (lastIndex : Nat) : List Char :=
  match u with
  | [] => sliceL t lastIndex t.length
  | s :: rest => sliceL t lastIndex s.index ++ gapsConcat t rest s.endIndex

/-! ## DOM model: `walkTextNodes`, generated units, observed roots -/

/-- A DOM node: a text node or an element with tag, attributes
(name/value pairs) and children. -/
inductive DomNode where
  | text (s : List Char)
  | elem (tag : String) (attrs : List (String × List Char)) (children : List DomNode)

/-- `SKIP_TAGS` of the content script. -/
def SKIP_TAGS : List String :=
  ["SCRIPT", "STYLE", "NOSCRIPT", "IFRAME", "OBJECT", "EMBED", "INPUT",
   "TEXTAREA", "SELECT", "BUTTON", "CODE", "PRE"]

/-- `SKIP_ATTRIBUTES` of the content script. -/
def SKIP_ATTRIBUTES : List String := ["data-translated", "contenteditable"]

/-- `node.hasAttribute(a)`. -/
def hasAttr (attrs : List (String × List Char)) (a : String) : Bool :=
  attrs.any fun p => p.1 == a

/-- Does this element start a skipped region (`SKIP_TAGS` member or
carrying a `SKIP_ATTRIBUTES` attribute)? -/
def skipsElem (tag : String) (attrs : List (String × List Char)) : Bool :=
  SKIP_TAGS.contains tag || SKIP_ATTRIBUTES.any fun a => hasAttr attrs a

mutual

/-- The text nodes `walkTextNodes` visits below a node, in document
order: a text node is accepted iff its content does not trim to empty
and no element on its parent chain (within the walked subtree) is in
`SKIP_TAGS` or carries a `SKIP_ATTRIBUTES` attribute.  `skipped` records
whether some ancestor already failed the filter. -/
def walkTextNodes (skipped : Bool) : DomNode → List (List Char)
  | DomNode.text s =>
    if !skipped && s.any (fun c => !c.isWhitespace) then [s] else []
  | DomNode.elem tag attrs children =>
    walkTextNodesList (skipped || skipsElem tag attrs) children

/-- `walkTextNodes` over a child list. -/
def walkTextNodesList (skipped : Bool) : List DomNode → List (List Char)
  | [] => []
  | c :: cs => walkTextNodes skipped c ++ walkTextNodesList skipped cs

end

/-- The DOM node a fragment item becomes: plain runs become text nodes;
units become the generated `span` with `data-original` and
`data-translated` attributes (class and style elided) whose only child
is the translation text. -/
def fragItemToNode : FragItem → DomNode
  | FragItem.plain s => DomNode.text s
  | FragItem.unit _ _ orig transl =>
    DomNode.elem "SPAN"
      [("data-original", orig), ("data-translated", ['t', 'r', 'u', 'e'])]
      [DomNode.text transl]

/-- Is a node an element (`node.nodeType === Node.ELEMENT_NODE`)? -/
def isElem : DomNode → Bool
  | DomNode.text _ => false
  | DomNode.elem _ _ _ => true

/-- The roots the mutation-observer callback captures from a batch of
added nodes: element nodes only (`processedNodes` holds only text nodes,
so its membership test never rejects an element). -/
def observerCapturedRoots (added : List DomNode) : List DomNode :=
  added.filter isElem

/-! ## Subtree scan and processed marking (`processSubtree`,
`translateKnownWords`) -/

/-- A text node reached by the walker, abstracted to an identity and its
text content. -/
structure ScanNode where
  id : Nat
  text : List Char
deriving Repr, DecidableEq

/-- `pattern.test(originalText)` over all chunks: does any chunk have a
match? -/
def hasAnyMatch (patterns : List (List Word)) (t : List Char) : Bool :=
  patterns.any fun alts => !(findMatches alts t).isEmpty

/-- The per-node body of `processSubtree`/`translateKnownWords` threaded
over the visited text nodes: skip nodes already in `processedNodes`;
if no pattern matches, return without marking; otherwise rewrite and add
the node to `processedNodes`.  The result is the processed set after the
walk. -/
def processSubtreeMarks (patterns : List (List Word)) (nodes : List ScanNode)
    (processed : List Nat) : List Nat :=
  nodes.foldl
    (fun acc n =>
      if n.id ∈ acc then acc
      else if hasAnyMatch patterns n.text then acc ++ [n.id]
      else acc)
    processed

/-! ## Mutation coordinator (`setupMutationObserver`) -/

/-- An event of the observer model: a mutation callback delivering the
distinct element roots of one burst, or the debounce timer firing. -/
inductive MEvent where
  | mutate (roots : List Nat)
  | fire
deriving Repr, DecidableEq

/-- Coordinator state: the batch captured by the pending debounced timer
(if one is scheduled), and the roots passed to `processSubtree` so far. -/
structure MState where
  pending : Option (List Nat)
  processed : List Nat
deriving Repr, DecidableEq

/-- One step of `setupMutationObserver`'s callback/timer logic: a
mutation callback with a non-empty root set clears the pending timer and
schedules a new one over its own `mutatedRoots` set (a `const` local of
that callback — the previously pending batch is discarded, not merged);
the timer firing processes exactly its captured batch. -/
def observerStep (s : MState) : MEvent → MState
  | MEvent.mutate roots =>
    if roots.isEmpty then s else { s with pending := some roots }
  | MEvent.fire =>
    match s.pending with
    | some rs => { pending := none, processed := s.processed ++ rs }
    | none => s

/-- Run the coordinator from the initial state (no pending timer,
nothing processed). -/
def runObserver (es : List MEvent) : MState :=
  es.foldl observerStep ⟨none, []⟩

/-- The batches actually fed to `processSubtree` by a trace: at each
`fire`, the batch of the latest non-empty burst since the previous fire
(if any). -/
def firedBatches : List MEvent → Option (List Nat) → List (List Nat)
  | [], _ => []
  | MEvent.mutate roots :: es, p =>
    firedBatches es (if roots.isEmpty then p else some roots)
  | MEvent.fire :: es, p =>
    (match p with
     | some rs => [rs]
     | none => []) ++ firedBatches es none

/-! ## Replacement commit (`textNode.parentNode.replaceChild(fragment, textNode)`) -/

/-- The final statement of `replaceTextNode` (and of
`highlightKnownWords`): `textNode.parentNode.replaceChild(fragment, textNode)`.
There is no check that the node is still attached: when `parentNode` is
`null`, the member access throws a `TypeError`; otherwise the text node
(child `idx` of its parent) is replaced by the fragment's children in a
single splice. -/
def replaceChildCommit (parentChildren : Option (List DomNode)) (idx : Nat)
    (fragChildren : List DomNode) : Except String (List DomNode) :=
  match parentChildren with
  | none => Except.error "TypeError: Cannot read properties of null (reading 'replaceChild')"
  | some cs => Except.ok (cs.take idx ++ fragChildren ++ cs.drop (idx + 1))

/-- Whole-node replacement: build the fragment for the resolved spans
and commit it in place of the text node. -/
def replaceTextNodeRun (kw : VocabMap) (dict : List (Word × Word))
    (t : List Char) (u : List Span) (parentChildren : Option (List DomNode))
    (idx : Nat) : Except String (List DomNode) :=
  replaceChildCommit parentChildren idx
    ((replaceTextNodeFragment kw dict t u).map fragItemToNode)

/-! ## Pattern compilation and caching (`getCompiledPatterns`,
`translateUnknownWords`) -/

/-- `Object.keys(knownWords)` sorted by `wordList.sort()` — the default
JS sort, i.e. lexicographic string order.  Note the source sorts the
array in place, so both the signature and the compiled chunks are built
from the sorted list. -/
def sortKeys (keys : List Word) : List Word :=
  keys.insertionSort (· ≤ ·)

/-- The vocabulary signature: `wordList.sort().join('|')`. -/
def keysSignature (keys : List Word) : List Char :=
  List.intercalate ['|'] (sortKeys keys)

/-- The `for (let i = 0; i < escapedWords.length; i += CHUNK_SIZE)`
chunking loop body: split a list into successive blocks of `n` elements.
The first argument is recursion fuel (the original list length bounds
the number of loop iterations). -/
def chunksOfAux (n : Nat) : Nat → List Word → List (List Word)
  | 0, _ => []
  | _ + 1, [] => []
  | fuel + 1, x :: xs => (x :: xs.take (n - 1)) :: chunksOfAux n fuel (xs.drop (n - 1))

/-- Split a list into successive blocks of `n` elements
(`escapedWords.slice(i, i + CHUNK_SIZE)` for `i = 0, n, 2n, ...`). -/
def chunksOf (n : Nat) (l : List Word) : List (List Word) :=
  chunksOfAux n l.length l

/-- `CHUNK_SIZE` of `getCompiledPatterns`. -/
def CHUNK_SIZE : Nat := 200

/-- The compiled chunk list: escape every key for literal matching,
chunk the sorted key list, and compile one case-insensitive
word-boundary alternation per chunk.  In the model a compiled chunk is
its list of literal alternatives (the regex escaping of
`escapeRegex` exists precisely so that each key matches literally, which
is what the matcher model implements directly). -/
def compileChunks (keys : List Word) : List (List Word) :=
  chunksOf CHUNK_SIZE (sortKeys keys)

/-- `getCompiledPatterns` with its cache: if a pattern list is cached
and the cached signature equals the current one, return the cached list
unchanged; otherwise compile and cache.  Returns the patterns and the
new cache contents (`cachedPatterns`, `cachedKnownWordsHash`). -/
def getCompiledPatterns (cache : Option (List (List Word) × List Char))
    (keys : List Word) : List (List Word) × Option (List (List Word) × List Char) :=
  let hash := keysSignature keys
  match cache with
  | some (ps, h) =>
    if h = hash then (ps, some (ps, h))
    else (compileChunks keys, some (compileChunks keys, hash))
  | none => (compileChunks keys, some (compileChunks keys, hash))

/-- The practice-mode pattern of `translateUnknownWords`:
`new RegExp('(' + escapedWords.join('|') + ')', 'g')` built from the
entries' translation strings — a single alternation with no `\b`
anchors and no `i` flag. -/
def translateUnknownWordsPattern (kw : VocabMap) : List Word :=
  kw.map fun p => p.2.translation

/-- Matches of the practice-mode pattern in a text block: the scan loop
of `highlightKnownWords`, case-sensitive and without word boundaries. -/
def practiceFindMatches (kw : VocabMap) (t : List Char) : List Span :=
  findFrom false false (translateUnknownWordsPattern kw) t (t.length + 1) 0

/-! ## Concrete example data used by counterexamples and witnesses -/

/-- Example text whose two vocabulary hits are separated by `", "`. -/
def exText : List Char := "hello, world".toList

/-- Example vocabulary: `hello → 我`, `world → 的`. -/
def exKw : VocabMap := [("hello".toList, ⟨"我".toList⟩), ("world".toList, ⟨"的".toList⟩)]

/-- Example compound dictionary: `我的 → my` (an actual entry of
`CompoundWords`). -/
def exDict : List (Word × Word) := [("我的".toList, "my".toList)]

/-- Example compiled pattern list (one chunk holding both keys). -/
def exPatterns : List (List Word) := [["hello".toList, "world".toList]]

/-- The generated unit node of the example fragment. -/
def exUnitNode : DomNode :=
  DomNode.elem "SPAN"
    [("data-original", "hello world".toList), ("data-translated", "true".toList)]
    [DomNode.text "my".toList]

/-- Example vocabulary for the practice-mode contrast: one entry whose
translation string is `he`. -/
def exPracticeKw : VocabMap := [("x".toList, ⟨"he".toList⟩)]

/-! # Theorems -/

/-! ## Slice arithmetic -/

theorem sliceL_append (t : List Char) (a b c : Nat) (hab : a ≤ b) (hbc : b ≤ c) :
    sliceL t a b ++ sliceL t b c = sliceL t a c := by
  unfold sliceL
  have hdrop : t.drop b = (t.drop a).drop (b - a) := by
    rw [List.drop_drop]
    congr 1
    omega
  rw [hdrop]
  have : c - a = (b - a) + (c - b) := by omega
  rw [this, List.take_add]

theorem sliceL_self (t : List Char) (a : Nat) : sliceL t a a = [] := by
  simp [sliceL]

theorem sliceL_zero_length (t : List Char) : sliceL t 0 t.length = t := by
  simp [sliceL]

/-! ## Well-formedness of scanner spans -/

theorem tryAlternation_length_le {ci wb : Bool} {alts : List Word} {t : List Char}
    {p : Nat} {w : Word} (h : tryAlternation ci wb alts t p = some w)
    (hp : p ≤ t.length) : p + w.length ≤ t.length := by
  unfold tryAlternation at h
  split at h
  · exact absurd h (by simp)
  · have hpred := List.find?_some h
    have hlit : litMatch ci w t p = true := by
      cases hl : litMatch ci w t p with
      | true => rfl
      | false => rw [hl] at hpred; simp at hpred
    unfold litMatch at hlit
    have hlen : ((t.drop p).take w.length).length = w.length := by
      split at hlit
      · have := eq_of_beq hlit
        calc ((t.drop p).take w.length).length
            = (lowerList ((t.drop p).take w.length)).length := by simp [lowerList]
          _ = (lowerList w).length := by rw [this]
          _ = w.length := by simp [lowerList]
      · rw [eq_of_beq hlit]
    simp [List.length_take, List.length_drop] at hlen
    omega

theorem tryAlternation_mem {ci wb : Bool} {alts : List Word} {t : List Char}
    {p : Nat} {w : Word} (h : tryAlternation ci wb alts t p = some w) : w ∈ alts := by
  unfold tryAlternation at h
  split at h
  · exact absurd h (by simp)
  · exact List.mem_of_find?_eq_some h

theorem findFrom_wf {ci wb : Bool} {alts : List Word} {t : List Char} :
    ∀ fuel p s, s ∈ findFrom ci wb alts t fuel p →
      s.index ≤ s.endIndex ∧ s.endIndex ≤ t.length ∧
        s.text = sliceL t s.index s.endIndex ∧
        s.endIndex = s.index + s.text.length ∧ p ≤ s.index := by
  intro fuel
  induction fuel with
  | zero => intro p s h; simp [findFrom] at h
  | succ n ih =>
    intro p s h
    unfold findFrom at h
    split at h
    · simp at h
    · rename_i hple
      have hp : p ≤ t.length := by omega
      split at h
      · rename_i w hw
        rcases List.mem_cons.mp h with heq | hmem
        · subst heq
          have hlen := tryAlternation_length_le hw hp
          refine ⟨by simp, by simpa using hlen, ?_, ?_, le_refl p⟩
          · simp only [sliceL]
            congr 1
            omega
          · simp only
            congr 1
            simp [List.length_take, List.length_drop]
            omega
        · have := ih (p + w.length) s hmem
          exact ⟨this.1, this.2.1, this.2.2.1, this.2.2.2.1, by omega⟩
      · have := ih (p + 1) s h
        exact ⟨this.1, this.2.1, this.2.2.1, this.2.2.2.1, by omega⟩

theorem collectMatches_wf {ps : List (List Word)} {t : List Char} {s : Span}
    (h : s ∈ collectMatches ps t) :
    s.index ≤ s.endIndex ∧ s.endIndex ≤ t.length ∧
      s.text = sliceL t s.index s.endIndex ∧ s.endIndex = s.index + s.text.length := by
  unfold collectMatches at h
  rcases List.mem_flatMap.mp h with ⟨alts, _, hmem⟩
  have : s.index ≤ s.endIndex ∧ s.endIndex ≤ t.length ∧
      s.text = sliceL t s.index s.endIndex ∧
      s.endIndex = s.index + s.text.length ∧ 0 ≤ s.index :=
    findFrom_wf _ 0 s hmem
  exact ⟨this.1, this.2.1, this.2.2.1, this.2.2.2.1⟩

theorem sortSpans_wf {ps : List (List Word)} {t : List Char} {s : Span}
    (h : s ∈ sortSpans (collectMatches ps t)) :
    s.index ≤ s.endIndex ∧ s.endIndex ≤ t.length ∧
      s.text = sliceL t s.index s.endIndex ∧ s.endIndex = s.index + s.text.length := by
  exact collectMatches_wf (List.mem_insertionSort spanLE |>.mp h)

/-! ## Overlap resolution -/

theorem resolveAux_sublist : ∀ (e : Nat) (l : List Span),
    List.Sublist (resolveAux e l) l := by
  intro e l
  induction l generalizing e with
  | nil => simp [resolveAux]
  | cons x xs ih =>
    unfold resolveAux
    split
    · exact List.Sublist.cons₂ x (ih x.endIndex)
    · exact List.Sublist.cons x (ih e)

theorem resolveAux_lower_bound : ∀ (e : Nat) (l : List Span) (x : Span),
    (∀ s ∈ l, s.index ≤ s.endIndex) → x ∈ resolveAux e l → e ≤ x.index := by
  intro e l
  induction l generalizing e with
  | nil => intro x _ h; simp [resolveAux] at h
  | cons y ys ih =>
    intro x hwf h
    have hwfy : y.index ≤ y.endIndex := hwf y (List.mem_cons_self y ys)
    have hwft : ∀ s ∈ ys, s.index ≤ s.endIndex := fun s hs =>
      hwf s (List.mem_cons_of_mem y hs)
    by_cases hey : e ≤ y.index
    · simp only [resolveAux, if_pos hey] at h
      rcases List.mem_cons.mp h with rfl | hmem
      · exact hey
      · have hy := ih y.endIndex x hwft hmem
        omega
    · simp only [resolveAux, if_neg hey] at h
      exact ih e x hwft h

theorem resolveAux_pairwise : ∀ (e : Nat) (l : List Span),
    (∀ s ∈ l, s.index ≤ s.endIndex) →
      List.Pairwise (fun a b => a.endIndex ≤ b.index) (resolveAux e l) := by
  intro e l
  induction l generalizing e with
  | nil => intro _; simp [resolveAux]
  | cons x xs ih =>
    intro hwf
    have hwft : ∀ s ∈ xs, s.index ≤ s.endIndex := fun s hs =>
      hwf s (List.mem_cons_of_mem x hs)
    by_cases hex : e ≤ x.index
    · simp only [resolveAux, if_pos hex]
      exact List.Pairwise.cons
        (fun b hb => resolveAux_lower_bound x.endIndex xs b hwft hb)
        (ih x.endIndex hwft)
    · simp only [resolveAux, if_neg hex]
      exact ih e hwft

theorem resolveAux_dropped : ∀ (e : Nat) (l : List Span) (x : Span),
    List.Sorted spanLE l → x ∈ l → x ∉ resolveAux e l →
      x.index < e ∨ ∃ y ∈ resolveAux e l, y.index ≤ x.index ∧ x.index < y.endIndex := by
  intro e l
  induction l generalizing e with
  | nil => intro x _ h _; exact absurd h (List.not_mem_nil x)
  | cons h t ih =>
    intro x hsort hmem hnot
    have hsort2 := (List.sorted_cons.mp hsort).2
    have hle := (List.sorted_cons.mp hsort).1
    by_cases heh : e ≤ h.index
    · simp only [resolveAux, if_pos heh] at hnot ⊢
      rcases List.mem_cons.mp hmem with rfl | hmemt
      · exact absurd (List.mem_cons_self x _) hnot
      · have hxnot : x ∉ resolveAux h.endIndex t := fun hc =>
          hnot (List.mem_cons_of_mem h hc)
        rcases ih h.endIndex x hsort2 hmemt hxnot with hlt | ⟨y, hy, hyx, hxy⟩
        · exact Or.inr ⟨h, List.mem_cons_self h _, hle x hmemt, hlt⟩
        · exact Or.inr ⟨y, List.mem_cons_of_mem h hy, hyx, hxy⟩
    · simp only [resolveAux, if_neg heh] at hnot ⊢
      rcases List.mem_cons.mp hmem with rfl | hmemt
      · exact Or.inl (by omega)
      · rcases ih e x hsort2 hmemt hnot with hlt | ⟨y, hy, hyx, hxy⟩
        · exact Or.inl hlt
        · exact Or.inr ⟨y, hy, hyx, hxy⟩

/-- Tie-breaking of overlap removal: among two distinct collected
matches at the same start offset, the one merged later is always
dropped (whether or not the earlier one survives). -/
theorem resolveAux_same_start_drop : ∀ (l : List Span) (e : Nat) (a b : Span),
    (∀ s ∈ l, s.index ≤ s.endIndex) →
    l.Nodup → List.Sublist [a, b] l → a.index = b.index → a.index < a.endIndex →
      b ∉ resolveAux e l := by
  intro l
  induction l with
  | nil => intro e a b _ _ hsub; cases hsub
  | cons c cs ih =>
    intro e a b hwf hnd hsub hab ha
    have hndtail := (List.nodup_cons.mp hnd).2
    have hcnot := (List.nodup_cons.mp hnd).1
    have hwft : ∀ s ∈ cs, s.index ≤ s.endIndex := fun s hs =>
      hwf s (List.mem_cons_of_mem c hs)
    cases hsub with
    | cons _ hsub2 =>
      have hbmem : b ∈ cs := hsub2.subset (by simp)
      by_cases hec : e ≤ c.index
      · simp only [resolveAux, if_pos hec]
        intro hc
        rcases List.mem_cons.mp hc with rfl | hmem
        · exact hcnot hbmem
        · exact ih c.endIndex a b hwft hndtail hsub2 hab ha hmem
      · simp only [resolveAux, if_neg hec]
        exact ih e a b hwft hndtail hsub2 hab ha
    | cons₂ _ hsub2 =>
      have hbmem : b ∈ cs := hsub2.subset (by simp)
      by_cases hea : e ≤ c.index
      · simp only [resolveAux, if_pos hea]
        intro hc
        rcases List.mem_cons.mp hc with rfl | hmem
        · exact hcnot hbmem
        · have := resolveAux_lower_bound c.endIndex cs b hwft hmem
          omega
      · simp only [resolveAux, if_neg hea]
        intro hc
        have := resolveAux_lower_bound e cs b hwft hc
        omega

/-! ## Compound resolver lemmas -/

theorem findCompound_eq_spec (dict : List (Word × Word)) (words : List Word)
    (i : Nat) : findCompound dict words i 2 = findCompoundSpec dict words i := by
  show findCompoundAux dict words i 2 = findCompoundSpec dict words i
  by_cases hc3 : i + 2 < words.length <;> by_cases hc2 : i + 1 < words.length <;>
    first
      | omega
      | (rcases h3 : lookupAssoc dict (((words.drop i).take 3).flatten) with _ | tr3 <;>
          rcases h2 : lookupAssoc dict (((words.drop i).take 2).flatten) with _ | tr2 <;>
            simp [findCompoundAux, findCompoundSpec, h3, h2, hc3, hc2])

theorem findCompoundSpec_take (dict : List (Word × Word)) (words : List Word)
    (i : Nat) : findCompoundSpec dict words i = findCompoundSpec dict (words.take (i + 3)) i := by
  have hd : (words.take (i + 3)).drop i = (words.drop i).take 3 := by
    rw [List.drop_take]
    congr 1
    omega
  have hl : (words.take (i + 3)).length = min (i + 3) words.length := List.length_take ..
  have h3 : ((words.take (i + 3)).drop i).take 3 = (words.drop i).take 3 := by
    rw [hd, List.take_take]
    norm_num
  have h2 : ((words.take (i + 3)).drop i).take 2 = (words.drop i).take 2 := by
    rw [hd, List.take_take]
    norm_num
  have hc3 : (i + 2 < (words.take (i + 3)).length) = (i + 2 < words.length) := by
    rw [hl, eq_iff_iff]
    omega
  have hc2 : (i + 1 < (words.take (i + 3)).length) = (i + 1 < words.length) := by
    rw [hl, eq_iff_iff]
    omega
  simp only [findCompoundSpec, h3, h2, hc3, hc2]

theorem findCompoundAux_length_bounds {dict : List (Word × Word)}
    {words : List Word} {res : FCResult} :
    ∀ L, findCompoundAux dict words 0 L = some res →
      2 ≤ res.length ∧ res.length ≤ words.length := by
  intro L
  induction L with
  | zero => intro h; exact absurd h (by simp [findCompoundAux])
  | succ n ih =>
    intro h
    unfold findCompoundAux at h
    split at h
    · rename_i hcond
      rcases hlk : lookupAssoc dict (((words.drop 0).take (n + 2)).flatten) with _ | tr
      · rw [hlk] at h
        exact ih h
      · rw [hlk] at h
        cases h
        simp only
        omega
    · exact ih h

/-! ## Mutation coordinator lemmas -/

theorem observer_foldl_processed : ∀ (es : List MEvent) (s : MState),
    (es.foldl observerStep s).processed =
      s.processed ++ (firedBatches es s.pending).flatten := by
  intro es
  induction es with
  | nil => intro s; simp [firedBatches]
  | cons e es ih =>
    intro s
    cases e with
    | mutate roots =>
      by_cases hr : roots.isEmpty
      · rw [List.foldl_cons,
          show observerStep s (MEvent.mutate roots) = s from by
            simp [observerStep, hr],
          show firedBatches (MEvent.mutate roots :: es) s.pending =
              firedBatches es s.pending from by simp [firedBatches, hr]]
        exact ih s
      · rw [List.foldl_cons,
          show observerStep s (MEvent.mutate roots) = { s with pending := some roots } from by
            simp [observerStep, hr],
          show firedBatches (MEvent.mutate roots :: es) s.pending =
              firedBatches es (some roots) from by simp [firedBatches, hr]]
        exact ih { s with pending := some roots }
    | fire =>
      cases hp : s.pending with
      | some rs =>
        rw [List.foldl_cons,
          show observerStep s MEvent.fire = ⟨none, s.processed ++ rs⟩ from by
            simp [observerStep, hp],
          show firedBatches (MEvent.fire :: es) (some rs) = rs :: firedBatches es none from by
            simp [firedBatches]]
        rw [ih ⟨none, s.processed ++ rs⟩]
        simp
      | none =>
        rw [List.foldl_cons,
          show observerStep s MEvent.fire = s from by simp [observerStep, hp],
          show firedBatches (MEvent.fire :: es) none = firedBatches es none from by
            simp [firedBatches]]
        rw [ih s, hp]

/-! ## Processed-marking lemmas -/

theorem processSubtreeMarks_mem (ps : List (List Word)) :
    ∀ (ns : List ScanNode) (p : List Nat) (i : Nat),
      i ∈ processSubtreeMarks ps ns p ↔
        i ∈ p ∨ ∃ n ∈ ns, n.id = i ∧ hasAnyMatch ps n.text := by
  intro ns
  induction ns with
  | nil => intro p i; simp [processSubtreeMarks]
  | cons n ns ih =>
    intro p i
    have hstep : processSubtreeMarks ps (n :: ns) p =
        processSubtreeMarks ps ns
          (if n.id ∈ p then p
           else if hasAnyMatch ps n.text then p ++ [n.id] else p) := rfl
    rw [hstep]
    by_cases hp : n.id ∈ p
    · rw [if_pos hp, ih]
      constructor
      · rintro (h | ⟨m, hm, hid, hmatch⟩)
        · exact Or.inl h
        · exact Or.inr ⟨m, List.mem_cons_of_mem n hm, hid, hmatch⟩
      · rintro (h | ⟨m, hm, hid, hmatch⟩)
        · exact Or.inl h
        · rcases List.mem_cons.mp hm with rfl | hmem
          · exact Or.inl (hid ▸ hp)
          · exact Or.inr ⟨m, hmem, hid, hmatch⟩
    · by_cases hm : hasAnyMatch ps n.text
      · rw [if_neg hp, if_pos hm, ih]
        constructor
        · rintro (h | ⟨m, hmem, hid, hmatch⟩)
          · rcases List.mem_append.mp h with h1 | h1
            · exact Or.inl h1
            · exact Or.inr ⟨n, List.mem_cons_self n ns,
                (List.mem_singleton.mp h1).symm, hm⟩
          · exact Or.inr ⟨m, List.mem_cons_of_mem n hmem, hid, hmatch⟩
        · rintro (h | ⟨m, hmem, hid, hmatch⟩)
          · exact Or.inl (List.mem_append.mpr (Or.inl h))
          · rcases List.mem_cons.mp hmem with rfl | hmem2
            · exact Or.inl (List.mem_append.mpr (Or.inr (List.mem_singleton.mpr hid.symm)))
            · exact Or.inr ⟨m, hmem2, hid, hmatch⟩
      · rw [if_neg hp, if_neg hm, ih]
        constructor
        · rintro (h | ⟨m, hmem, hid, hmatch⟩)
          · exact Or.inl h
          · exact Or.inr ⟨m, List.mem_cons_of_mem n hmem, hid, hmatch⟩
        · rintro (h | ⟨m, hmem, hid, hmatch⟩)
          · exact Or.inl h
          · rcases List.mem_cons.mp hmem with rfl | hmem2
            · exact absurd hmatch hm
            · exact Or.inr ⟨m, hmem2, hid, hmatch⟩

theorem processSubtreeMarks_noop (ps : List (List Word)) :
    ∀ (ns : List ScanNode) (p : List Nat),
      (∀ n ∈ ns, n.id ∈ p ∨ hasAnyMatch ps n.text = false) →
        processSubtreeMarks ps ns p = p := by
  intro ns
  induction ns with
  | nil => intro p _; rfl
  | cons n ns ih =>
    intro p hall
    have hstep : processSubtreeMarks ps (n :: ns) p =
        processSubtreeMarks ps ns
          (if n.id ∈ p then p
           else if hasAnyMatch ps n.text then p ++ [n.id] else p) := rfl
    rw [hstep]
    rcases hall n (List.mem_cons_self n ns) with hp | hm
    · rw [if_pos hp]
      exact ih p fun m hm => hall m (List.mem_cons_of_mem n hm)
    · by_cases hp : n.id ∈ p
      · rw [if_pos hp]
        exact ih p fun m hmem => hall m (List.mem_cons_of_mem n hmem)
      · rw [if_neg hp, if_neg (by simp [hm]), ]
        exact ih p fun m hmem => hall m (List.mem_cons_of_mem n hmem)

/-! ## Case-sensitivity of the practice matcher -/

theorem tryAlternation_text_exact {wb : Bool} {alts : List Word} {t : List Char}
    {p : Nat} {w : Word} (h : tryAlternation false wb alts t p = some w) :
    (t.drop p).take w.length = w := by
  unfold tryAlternation at h
  split at h
  · exact absurd h (by simp)
  · have hpred := List.find?_some h
    have hlit : litMatch false w t p = true := by
      cases hl : litMatch false w t p with
      | true => rfl
      | false => rw [hl] at hpred; simp at hpred
    have hlit2 : ((t.drop p).take w.length == w) = true := by
      simpa [litMatch] using hlit
    exact eq_of_beq hlit2

theorem findFrom_text_mem_cs {wb : Bool} {alts : List Word} {t : List Char} :
    ∀ fuel p s, s ∈ findFrom false wb alts t fuel p → s.text ∈ alts := by
  intro fuel
  induction fuel with
  | zero => intro p s h; simp [findFrom] at h
  | succ n ih =>
    intro p s h
    unfold findFrom at h
    split at h
    · simp at h
    · split at h
      · rename_i w hw
        rcases List.mem_cons.mp h with heq | hmem
        · subst heq
          simpa [tryAlternation_text_exact hw] using tryAlternation_mem hw
        · exact ih (p + w.length) s hmem
      · exact ih (p + 1) s h

/-! ## Fragment reconstruction -/

theorem gapPlain_render (t : List Char) (a b : Nat) (hab : a ≤ b) :
    ((gapPlain t a b).map (renderOriginal t)).flatten = sliceL t a b := by
  by_cases h : a < b
  · simp [gapPlain, h, renderOriginal]
  · have hb : a = b := by omega
    subst hb
    simp [gapPlain, sliceL_self]

theorem mem_compoundConsumed {u : List Span} {i L j : Nat} :
    j ∈ compoundConsumed u i L ↔ i ≤ j ∧ j < i + L ∧ j < u.length := by
  simp only [compoundConsumed, List.mem_filter, List.mem_range', decide_eq_true_eq]
  constructor
  · rintro ⟨⟨k, hk, rfl⟩, hlen⟩
    omega
  · rintro ⟨hij, hjL, hjlen⟩
    exact ⟨⟨j - i, by omega, by omega⟩, hjlen⟩

theorem nextTranslations_length_le (kw : VocabMap) (u : List Span) (i : Nat) :
    (nextTranslations kw u i).length ≤ u.length - (i + 1) := by
  have h1 : (nextTranslations kw u i).length ≤ ((u.drop (i + 1)).take 2).length :=
    List.length_filterMap_le _ _
  simp only [List.length_take, List.length_drop] at h1
  omega

theorem nextTranslations_length_le_two (kw : VocabMap) (u : List Span) (i : Nat) :
    (nextTranslations kw u i).length ≤ 2 := by
  have h1 : (nextTranslations kw u i).length ≤ ((u.drop (i + 1)).take 2).length :=
    List.length_filterMap_le _ _
  simp only [List.length_take, List.length_drop] at h1
  omega

/-- Main invariant of the `replaceTextNode` match loop: starting from an
accumulated fragment, the loop appends items whose original-text
rendering is exactly the remaining tail `t[lastIndex ..]` of the text.
`fuel` tracks the remaining iterations (`u.length - i`), `lastIndex`
never exceeds the start offset of any remaining unprocessed match, and
the spans are well-formed and pairwise non-overlapping. -/
theorem buildLoop_render (kw : VocabMap) (dict : List (Word × Word)) (u : List Span)
    (t : List Char)
    (hwf : ∀ s ∈ u, s.index ≤ s.endIndex ∧ s.endIndex ≤ t.length)
    (hpw : List.Pairwise (fun a b => a.endIndex ≤ b.index) u) :
    ∀ (fuel i lastIndex : Nat) (processed : List Nat) (acc : List FragItem),
      fuel = u.length - i →
      lastIndex ≤ t.length →
      (∀ j (hj : j < u.length), i ≤ j → j ∉ processed →
        lastIndex ≤ (u.get ⟨j, hj⟩).index) →
      ((buildLoop kw dict u t fuel i lastIndex processed acc).map
          (renderOriginal t)).flatten =
        (acc.map (renderOriginal t)).flatten ++ sliceL t lastIndex t.length := by
  intro fuel
  induction fuel with
  | zero =>
    intro i lastIndex processed acc _ hle _
    by_cases hlt : lastIndex < t.length
    · simp [buildLoop, finalPlain, hlt, renderOriginal]
    · have hb : lastIndex = t.length := by omega
      subst hb
      simp [buildLoop, finalPlain, sliceL_self]
  | succ n ih =>
    intro i lastIndex processed acc hfuel hle hinv
    have hi : i < u.length := by omega
    have hfuel2 : n = u.length - (i + 1) := by omega
    rw [show buildLoop kw dict u t (n + 1) i lastIndex processed acc =
        (if i ∈ processed then buildLoop kw dict u t n (i + 1) lastIndex processed acc
         else
          match lookupAssoc kw (lowerList (u.get ⟨i, hi⟩).text) with
          | none => buildLoop kw dict u t n (i + 1) lastIndex processed acc
          | some wd =>
            match (if (wd.translation :: nextTranslations kw u i).length > 1 then
                findCompound dict (wd.translation :: nextTranslations kw u i) 0 2
              else none) with
            | some res =>
              buildLoop kw dict u t n (i + 1) (compoundEnd u i res.length)
                (processed ++ compoundConsumed u i res.length)
                (acc ++ gapPlain t lastIndex (u.get ⟨i, hi⟩).index ++
                  [FragItem.unit (u.get ⟨i, hi⟩).index (compoundEnd u i res.length)
                    (compoundOrig u i res.length) res.translation])
            | none =>
              buildLoop kw dict u t n (i + 1) (u.get ⟨i, hi⟩).endIndex
                (processed ++ [i])
                (acc ++ gapPlain t lastIndex (u.get ⟨i, hi⟩).index ++
                  [FragItem.unit (u.get ⟨i, hi⟩).index (u.get ⟨i, hi⟩).endIndex
                    (u.get ⟨i, hi⟩).text wd.translation])) from by
      simp only [buildLoop, dif_pos hi]]
    by_cases hiproc : i ∈ processed
    · rw [if_pos hiproc]
      exact ih (i + 1) lastIndex processed acc hfuel2 hle
        (fun j hj hij hjp => hinv j hj (by omega) hjp)
    · rw [if_neg hiproc]
      have hcuri : lastIndex ≤ (u.get ⟨i, hi⟩).index :=
        hinv i hi (le_refl i) hiproc
      have hcurwf := hwf (u.get ⟨i, hi⟩) (List.get_mem u i hi)
      rcases hlk : lookupAssoc kw (lowerList (u.get ⟨i, hi⟩).text) with _ | wd
      · exact ih (i + 1) lastIndex processed acc hfuel2 hle
          (fun j hj hij hjp => hinv j hj (by omega) hjp)
      · dsimp only
        rcases hcr : (if (wd.translation :: nextTranslations kw u i).length > 1 then
            findCompound dict (wd.translation :: nextTranslations kw u i) 0 2
          else none) with _ | res
        · -- single-word unit
          have hrec := ih (i + 1) (u.get ⟨i, hi⟩).endIndex (processed ++ [i])
            (acc ++ gapPlain t lastIndex (u.get ⟨i, hi⟩).index ++
              [FragItem.unit (u.get ⟨i, hi⟩).index (u.get ⟨i, hi⟩).endIndex
                (u.get ⟨i, hi⟩).text wd.translation])
            hfuel2 hcurwf.2 ?_
          · refine hrec.trans ?_
            simp only [List.map_append, List.flatten_append, List.map_cons,
              List.map_nil, List.flatten_cons, List.flatten_nil, renderOriginal,
              List.append_nil, List.append_assoc]
            rw [gapPlain_render t lastIndex (u.get ⟨i, hi⟩).index hcuri]
            rw [sliceL_append t (u.get ⟨i, hi⟩).index (u.get ⟨i, hi⟩).endIndex
              t.length hcurwf.1 hcurwf.2]
            rw [sliceL_append t lastIndex (u.get ⟨i, hi⟩).index t.length hcuri
              (le_trans hcurwf.1 hcurwf.2)]
          · intro j hj hij hjp
            have hji : j ≠ i := by omega
            have hjp2 : j ∉ processed := fun hc => hjp (by simp [hc])
            have hij2 : i < j := by omega
            have := List.pairwise_iff_getElem.mp hpw i j hi hj hij2
            simpa [List.get_eq_getElem] using this
        · -- compound unit
          have hcond : (wd.translation :: nextTranslations kw u i).length > 1 ∧
              findCompound dict (wd.translation :: nextTranslations kw u i) 0 2 =
                some res := by
            by_cases hgt : (wd.translation :: nextTranslations kw u i).length > 1
            · rw [if_pos hgt] at hcr
              exact ⟨hgt, hcr⟩
            · rw [if_neg hgt] at hcr
              exact absurd hcr (by simp)
          have hLb := findCompoundAux_length_bounds 2 hcond.2
          have hnt := nextTranslations_length_le kw u i
          have hcwlen : (wd.translation :: nextTranslations kw u i).length =
              (nextTranslations kw u i).length + 1 := by simp
          have hrange : i + res.length - 1 < u.length := by omega
          have hkgt : i < i + res.length - 1 := by omega
          have hEnd : compoundEnd u i res.length =
              (u.get ⟨i + res.length - 1, hrange⟩).endIndex := by
            simp [compoundEnd, List.getD_eq_getElem?_getD,
              List.getElem?_eq_getElem hrange, List.get_eq_getElem]
          have hkwf := hwf (u.get ⟨i + res.length - 1, hrange⟩)
            (List.get_mem u _ _)
          have hik : (u.get ⟨i, hi⟩).endIndex ≤
              (u.get ⟨i + res.length - 1, hrange⟩).index := by
            have := List.pairwise_iff_getElem.mp hpw i (i + res.length - 1) hi hrange hkgt
            simpa [List.get_eq_getElem] using this
          have hlastle : (u.get ⟨i, hi⟩).index ≤ compoundEnd u i res.length := by
            rw [hEnd]
            omega
          have hendle : compoundEnd u i res.length ≤ t.length := by
            rw [hEnd]
            exact hkwf.2
          have hrec := ih (i + 1) (compoundEnd u i res.length)
            (processed ++ compoundConsumed u i res.length)
            (acc ++ gapPlain t lastIndex (u.get ⟨i, hi⟩).index ++
              [FragItem.unit (u.get ⟨i, hi⟩).index (compoundEnd u i res.length)
                (compoundOrig u i res.length) res.translation])
            hfuel2 hendle ?_
          · refine hrec.trans ?_
            simp only [List.map_append, List.flatten_append, List.map_cons,
              List.map_nil, List.flatten_cons, List.flatten_nil, renderOriginal,
              List.append_nil, List.append_assoc]
            rw [gapPlain_render t lastIndex (u.get ⟨i, hi⟩).index hcuri]
            rw [sliceL_append t (u.get ⟨i, hi⟩).index (compoundEnd u i res.length)
              t.length hlastle hendle]
            rw [sliceL_append t lastIndex (u.get ⟨i, hi⟩).index t.length hcuri
              (le_trans hlastle hendle)]
          · intro j hj hij hjp
            have hjp2 : j ∉ processed := fun hc => hjp (List.mem_append.mpr (Or.inl hc))
            have hjc : j ∉ compoundConsumed u i res.length := fun hc =>
              hjp (List.mem_append.mpr (Or.inr hc))
            have hjge : i + res.length ≤ j := by
              by_contra hlt
              exact hjc (mem_compoundConsumed.mpr ⟨by omega, by omega, hj⟩)
            have hkj : i + res.length - 1 < j := by omega
            have := List.pairwise_iff_getElem.mp hpw (i + res.length - 1) j hrange hj hkj
            rw [hEnd]
            simpa [List.get_eq_getElem] using this

/-! ## Claim theorems -/

/-- C1: For every text and every matcher list, the match-span list
produced for one text block (after merging all matchers' occurrences) is
sorted by start offset and mutually non-overlapping: matches are kept
verbatim (a sublist of the merged, sorted occurrence list — no partial
trimming), and every merged occurrence that is dropped starts strictly
before the end offset of a kept match that starts no later than it. -/
theorem claim_C1_scanner_sorted_nonoverlapping (ps : List (List Word)) (t : List Char) :
    List.Sorted spanLE (scanText ps t) ∧
    List.Pairwise (fun a b => a.endIndex ≤ b.index) (scanText ps t) ∧
    List.Sublist (scanText ps t) (sortSpans (collectMatches ps t)) ∧
    (∀ x ∈ sortSpans (collectMatches ps t), x ∉ scanText ps t →
      ∃ y ∈ scanText ps t, y.index ≤ x.index ∧ x.index < y.endIndex) := by
  have hwf : ∀ s ∈ sortSpans (collectMatches ps t), s.index ≤ s.endIndex :=
    fun s hs => (sortSpans_wf hs).1
  have hsorted : List.Sorted spanLE (sortSpans (collectMatches ps t)) :=
    List.sorted_insertionSort spanLE (collectMatches ps t)
  refine ⟨?_, ?_, ?_, ?_⟩
  · exact hsorted.sublist (resolveAux_sublist 0 _)
  · exact resolveAux_pairwise 0 _ hwf
  · exact resolveAux_sublist 0 _
  · intro x hx hnx
    rcases resolveAux_dropped 0 _ x hsorted hx hnx with hlt | h
    · omega
    · exact h

/-- Witness for C1 at a concrete input: scanning `"foo bar"` with the
two chunks `[foo]` and `[foo bar]` drops the merged occurrence of
`foo bar` (which starts at the same offset as the kept `foo`), and the
theorem produces the kept overlapping match. -/
theorem claim_C1_witness :
    (⟨"foo bar".toList, 0, 7⟩ : Span) ∈
      sortSpans (collectMatches [["foo".toList], ["foo bar".toList]] "foo bar".toList) ∧
    (⟨"foo bar".toList, 0, 7⟩ : Span) ∉
      scanText [["foo".toList], ["foo bar".toList]] "foo bar".toList ∧
    ∃ y ∈ scanText [["foo".toList], ["foo bar".toList]] "foo bar".toList,
      y.index ≤ 0 ∧ 0 < y.endIndex :=
  ⟨by decide, by decide,
    (claim_C1_scanner_sorted_nonoverlapping [["foo".toList], ["foo bar".toList]]
        "foo bar".toList).2.2.2
      ⟨"foo bar".toList, 0, 7⟩ (by decide) (by decide)⟩

/-- C3 counterexample: two mutation bursts arrive within one debounce
window (first burst adds root `1`, second adds root `2`, then the timer
fires).  Root `1` was added before the timer fired, but only root `2` is
ever passed to `processSubtree`: the rescheduled timer processes only
the batch of the callback that scheduled it, and root `1` is lost. -/
theorem claim_C3_counterexample :
    runObserver [MEvent.mutate [1], MEvent.mutate [2], MEvent.fire] =
      ⟨none, [2]⟩ ∧
    1 ∉ (runObserver [MEvent.mutate [1], MEvent.mutate [2], MEvent.fire]).processed := by
  constructor
  · rfl
  · decide

/-- C3 (amended): when the debounce timer fires, exactly the roots of
the latest non-empty mutation burst since the previous firing are
processed, in capture order; roots of earlier bursts in the same
debounce window are discarded when the timer is rescheduled, not
coalesced. -/
theorem claim_C3_last_burst_only (es : List MEvent) :
    (runObserver es).processed = (firedBatches es none).flatten := by
  have h := observer_foldl_processed es ⟨none, []⟩
  simpa [runObserver] using h

/-- C4 counterexample: a text node whose text `zzz` has no match for the
vocabulary `{hello}` is visited by a scan started with an empty
processed set; after the scan completes, the processed set is still
empty — the no-match node was *not* marked processed, contradicting the
claimed `{unseen} → {processed, unchanged}` transition. -/
theorem claim_C4_counterexample :
    hasAnyMatch [["hello".toList]] "zzz".toList = false ∧
    processSubtreeMarks [["hello".toList]] [⟨0, "zzz".toList⟩] [] = [] ∧
    0 ∉ processSubtreeMarks [["hello".toList]] [⟨0, "zzz".toList⟩] [] := by
  refine ⟨rfl, rfl, ?_⟩
  decide

/-- C4 (amended): a visited text node is added to the processed set only
when scanning finds a match (the `{unseen} → {rewritten, processed}`
transition); no-match nodes are left unmarked and are re-examined by
later scans.  The processed set after a scan is characterised exactly,
and a repeated scan of the same nodes changes nothing (it performs no
further marking). -/
theorem claim_C4_marks_only_on_match (ps : List (List Word)) (ns : List ScanNode)
    (p : List Nat) :
    (∀ i, i ∈ processSubtreeMarks ps ns p ↔
      i ∈ p ∨ ∃ n ∈ ns, n.id = i ∧ hasAnyMatch ps n.text) ∧
    processSubtreeMarks ps ns (processSubtreeMarks ps ns p) =
      processSubtreeMarks ps ns p := by
  refine ⟨processSubtreeMarks_mem ps ns p, ?_⟩
  apply processSubtreeMarks_noop
  intro n hn
  by_cases hm : hasAnyMatch ps n.text
  · exact Or.inl ((processSubtreeMarks_mem ps ns p n.id).mpr
      (Or.inr ⟨n, hn, rfl, hm⟩))
  · exact Or.inr (by simpa using hm)

/-- C6: `findCompound` with the lookahead of 2 used by `replaceTextNode`
is exactly the 3-word-then-2-word-then-none longest-first lookup
(so when both the 2-word and the 3-word concatenation are in the
dictionary, the 3-word compound is returned), and its result depends
only on the tokens up to 2 positions past `startIndex` (it never looks
further ahead). -/
theorem claim_C6_findCompound_longest_first (dict : List (Word × Word))
    (words : List Word) (i : Nat) :
    findCompound dict words i 2 = findCompoundSpec dict words i ∧
    findCompound dict words i 2 = findCompound dict (words.take (i + 3)) i 2 := by
  refine ⟨findCompound_eq_spec dict words i, ?_⟩
  rw [findCompound_eq_spec, findCompound_eq_spec, findCompoundSpec_take]

/-- C8 counterexample: with vocabulary keys `foo` and `foo bar`, both of
which match `"foo bar"` at start offset 0, the resolved span list
depends on how the keys are split into chunks (the two orders give
different results), and the code's own chunking (sorted keys, one chunk)
keeps the *shorter* match `foo` — the result is first-in-merge-order
preferred, not longest-match preferred. -/
theorem claim_C8_counterexample :
    scanText [["foo".toList], ["foo bar".toList]] "foo bar".toList =
      [⟨"foo".toList, 0, 3⟩] ∧
    scanText [["foo bar".toList], ["foo".toList]] "foo bar".toList =
      [⟨"foo bar".toList, 0, 7⟩] ∧
    scanText [["foo".toList], ["foo bar".toList]] "foo bar".toList ≠
      scanText [["foo bar".toList], ["foo".toList]] "foo bar".toList ∧
    scanText (compileChunks ["foo".toList, "foo bar".toList]) "foo bar".toList =
      [⟨"foo".toList, 0, 3⟩] := by
  refine ⟨rfl, rfl, by decide, by decide⟩

/-- C8 (amended): which match survives at a given start offset is
determined by merge order, not by length: among two distinct merged
occurrences at the same start offset, the one appearing later in the
merged stably-sorted occurrence list is always dropped by overlap
resolution (so the survivor, if any, is the earlier-merged one — from
the earlier chunk or the earlier alternative — and the span list is
chunk-order dependent rather than longest-match-preferred). -/
theorem claim_C8_tie_break (ps : List (List Word)) (t : List Char) (a b : Span)
    (hnd : (sortSpans (collectMatches ps t)).Nodup)
    (hsub : List.Sublist [a, b] (sortSpans (collectMatches ps t)))
    (hab : a.index = b.index) (ha : a.index < a.endIndex) :
    b ∉ scanText ps t :=
  resolveAux_same_start_drop _ 0 a b (fun _ hs => (sortSpans_wf hs).1) hnd hsub hab ha

/-- Witness for C8 at a concrete input: in the two-chunk scan of
`"foo bar"`, the merged sorted occurrences are `foo` then `foo bar`,
both at offset 0, and the later-merged `foo bar` occurrence is dropped. -/
theorem claim_C8_witness :
    (sortSpans (collectMatches [["foo".toList], ["foo bar".toList]] "foo bar".toList)).Nodup ∧
    List.Sublist [(⟨"foo".toList, 0, 3⟩ : Span), ⟨"foo bar".toList, 0, 7⟩]
      (sortSpans (collectMatches [["foo".toList], ["foo bar".toList]] "foo bar".toList)) ∧
    (⟨"foo bar".toList, 0, 7⟩ : Span) ∉
      scanText [["foo".toList], ["foo bar".toList]] "foo bar".toList :=
  ⟨by decide, by decide,
    claim_C8_tie_break [["foo".toList], ["foo bar".toList]] "foo bar".toList
      ⟨"foo".toList, 0, 3⟩ ⟨"foo bar".toList, 0, 7⟩
      (by decide) (by decide) (by decide) (by decide)⟩

/-- C9 counterexample: replacing a detached text node (null
`parentNode`) does not silently skip — the unchecked
`textNode.parentNode.replaceChild(...)` access raises a `TypeError`. -/
theorem claim_C9_counterexample :
    replaceTextNodeRun exKw exDict exText (scanText exPatterns exText) none 0 =
      Except.error "TypeError: Cannot read properties of null (reading 'replaceChild')" := rfl

/-- C9 (amended): the rewriter performs no still-attached check before
replacing: with a parent present, the text node is replaced by the
fragment's children in a single splice; with the node detached
(`parentNode === null`), the replacement statement throws a `TypeError`
instead of being silently skipped. -/
theorem claim_C9_no_parent_check (kw : VocabMap) (dict : List (Word × Word))
    (t : List Char) (u : List Span) (idx : Nat) :
    replaceTextNodeRun kw dict t u none idx =
      Except.error "TypeError: Cannot read properties of null (reading 'replaceChild')" ∧
    ∀ cs, replaceTextNodeRun kw dict t u (some cs) idx =
      Except.ok (cs.take idx ++ (replaceTextNodeFragment kw dict t u).map fragItemToNode ++
        cs.drop (idx + 1)) :=
  ⟨rfl, fun _ => rfl⟩

/-- C10: the practice-mode highlight pattern is built from the
entries' translation strings with neither the `i` flag nor `\b`
anchors, so every span it produces carries a surface text that is
*literally* (case-sensitively) one of the translation strings, and it
matches inside larger words (`he` inside `the`) while failing on a
case-mismatched occurrence (`He`); learn-mode scanning behaves in the
opposite way on the same inputs (boundary-anchored and
case-insensitive). -/
theorem claim_C10_practice_pattern_unanchored :
    (∀ kw t s, s ∈ practiceFindMatches kw t →
      s.text ∈ translateUnknownWordsPattern kw) ∧
    translateUnknownWordsPattern exPracticeKw = ["he".toList] ∧
    practiceFindMatches exPracticeKw "the".toList = [⟨"he".toList, 1, 3⟩] ∧
    scanText [["he".toList]] "the".toList = [] ∧
    practiceFindMatches exPracticeKw "He said".toList = [] ∧
    scanText [["he".toList]] "He said".toList = [⟨"He".toList, 0, 2⟩] := by
  refine ⟨?_, rfl, by decide, by decide, by decide, by decide⟩
  intro kw t s hs
  exact findFrom_text_mem_cs _ 0 s hs

/-- The sorted key list is determined by the key multiset alone. -/
theorem sortKeys_eq_of_perm {k1 k2 : List Word} (h : k1.Perm k2) :
    sortKeys k1 = sortKeys k2 := by
  have hs1 : List.Sorted (· ≤ ·) (sortKeys k1) :=
    List.sorted_insertionSort (· ≤ ·) k1
  have hs2 : List.Sorted (· ≤ ·) (sortKeys k2) :=
    List.sorted_insertionSort (· ≤ ·) k2
  have hp : (sortKeys k1).Perm (sortKeys k2) :=
    (List.perm_insertionSort _ k1).trans (h.trans (List.perm_insertionSort _ k2).symm)
  exact List.eq_of_perm_of_sorted hp hs1 hs2

/-- C7: the vocabulary signature (`wordList.sort().join('|')`) is
independent of key insertion order; two rebuilds from permuted key lists
compile identical chunk lists and hence produce identical span lists on
every input text; and `getCompiledPatterns` with a cache whose signature
equals the current one returns the cached matcher list unchanged. -/
theorem claim_C7_signature_stability (k1 k2 : List Word) (h : k1.Perm k2) :
    keysSignature k1 = keysSignature k2 ∧
    compileChunks k1 = compileChunks k2 ∧
    (∀ t, scanText (compileChunks k1) t = scanText (compileChunks k2) t) ∧
    (∀ ps, getCompiledPatterns (some (ps, keysSignature k1)) k1 =
      (ps, some (ps, keysSignature k1))) := by
  have hs := sortKeys_eq_of_perm h
  refine ⟨?_, ?_, ?_, ?_⟩
  · simp [keysSignature, hs]
  · simp [compileChunks, hs]
  · intro t
    simp [compileChunks, hs]
  · intro ps
    simp [getCompiledPatterns]

/-- Witness for C7 at a concrete input: the two insertion orders of the
key set `{a, b}` give the same signature, and the cache hit returns the
cached pattern list unchanged. -/
theorem claim_C7_witness :
    (["b".toList, "a".toList] : List Word).Perm ["a".toList, "b".toList] ∧
    keysSignature ["b".toList, "a".toList] = keysSignature ["a".toList, "b".toList] ∧
    getCompiledPatterns
        (some ([["a".toList, "b".toList]], keysSignature ["b".toList, "a".toList]))
        ["b".toList, "a".toList] =
      ([["a".toList, "b".toList]],
        some ([["a".toList, "b".toList]], keysSignature ["b".toList, "a".toList])) :=
  ⟨List.Perm.swap "a".toList "b".toList [],
    (claim_C7_signature_stability _ _ (List.Perm.swap "a".toList "b".toList [])).1,
    (claim_C7_signature_stability _ _ (List.Perm.swap "a".toList "b".toList [])).2.2.2
      [["a".toList, "b".toList]]⟩

/-- C5: every element node among the fragment children that
`replaceTextNode` splices in (the only nodes the mutation-observer
callback captures as roots — text-node children are ignored) is a
generated unit carrying `data-translated`, so a subsequent
`processSubtree` walk over it visits no text node at all and performs
zero further replacements: the rewriter's own output is never
reprocessed. -/
theorem claim_C5_generated_units_inert (kw : VocabMap) (dict : List (Word × Word))
    (t : List Char) (u : List Span) (n : DomNode)
    (hn : n ∈ observerCapturedRoots
      ((replaceTextNodeFragment kw dict t u).map fragItemToNode)) :
    walkTextNodes false n = [] := by
  rcases List.mem_filter.mp hn with ⟨hmem, helem⟩
  rcases List.mem_map.mp hmem with ⟨item, _, rfl⟩
  cases item with
  | plain s => simp [fragItemToNode, isElem] at helem
  | unit cs ce orig transl =>
    simp [fragItemToNode, walkTextNodes, walkTextNodesList, skipsElem, hasAttr,
      SKIP_ATTRIBUTES, SKIP_TAGS]

/-- Witness for C5 at a concrete input: the single captured root of the
example replacement (the compound unit for `hello world`) yields an
empty `walkTextNodes` visit list. -/
theorem claim_C5_witness :
    exUnitNode ∈ observerCapturedRoots
      ((replaceTextNodeFragment exKw exDict exText (scanText exPatterns exText)).map
        fragItemToNode) ∧
    walkTextNodes false exUnitNode = [] := by
  have hm : exUnitNode ∈ observerCapturedRoots
      ((replaceTextNodeFragment exKw exDict exText (scanText exPatterns exText)).map
        fragItemToNode) := by
    show exUnitNode ∈ [exUnitNode]
    exact List.mem_singleton.mpr rfl
  exact ⟨hm, claim_C5_generated_units_inert exKw exDict exText
    (scanText exPatterns exText) exUnitNode hm⟩

/-- C2 counterexample: for the text `"hello, world"` with vocabulary
`{hello → 我, world → 的}` and the compound entry `我的 → my`, the two
match spans are consumed as one compound unit and the text `", "` lying
between them (outside both spans) is *not* reproduced as a plain-text
run: the fragment is a single unit and its plain runs are empty, while
the text outside the resolved spans is `", "`. -/
theorem claim_C2_counterexample :
    replaceTextNodeFragment exKw exDict exText (scanText exPatterns exText) =
      [FragItem.unit 0 12 "hello world".toList "my".toList] ∧
    gapsConcat exText (scanText exPatterns exText) 0 = ", ".toList ∧
    (plainRuns (replaceTextNodeFragment exKw exDict exText
        (scanText exPatterns exText))).flatten ≠
      gapsConcat exText (scanText exPatterns exText) 0 := by
  refine ⟨by decide, by decide, by decide⟩

/-- C2 (amended): the replacement fragment accounts for the whole text
in order — rendering each plain run as itself and each generated unit as
the region of original text it replaces (from the unit's first consumed
match to its last) reconstructs the original text exactly.  Plain runs
are therefore precisely the text outside the consumed regions; text
*between* spans merged into one compound unit is absorbed into that
unit (its `data-original` records the matched words joined by single
spaces) rather than emitted as a plain run. -/
theorem claim_C2_fragment_reconstructs (kw : VocabMap) (dict : List (Word × Word))
    (ps : List (List Word)) (t : List Char) :
    ((replaceTextNodeFragment kw dict t (scanText ps t)).map
      (renderOriginal t)).flatten = t := by
  have hwf : ∀ s ∈ scanText ps t, s.index ≤ s.endIndex ∧ s.endIndex ≤ t.length := by
    intro s hs
    have hs2 : s ∈ sortSpans (collectMatches ps t) :=
      (resolveAux_sublist 0 _).subset hs
    exact ⟨(sortSpans_wf hs2).1, (sortSpans_wf hs2).2.1⟩
  have hpw : List.Pairwise (fun a b => a.endIndex ≤ b.index) (scanText ps t) :=
    resolveAux_pairwise 0 (sortSpans (collectMatches ps t))
      (fun s hs => (sortSpans_wf hs).1)
  have h := buildLoop_render kw dict (scanText ps t) t hwf hpw
    (scanText ps t).length 0 0 [] [] (by omega) (Nat.zero_le _)
    (fun j hj _ _ => Nat.zero_le _)
  simpa [replaceTextNodeFragment, sliceL_zero_length] using h

/-- Witness for C10 at a concrete input: the practice span found inside
`"the"` carries exactly the translation string `he`. -/
theorem claim_C10_witness :
    (⟨"he".toList, 1, 3⟩ : Span) ∈ practiceFindMatches exPracticeKw "the".toList ∧
    ("he".toList : Word) ∈ translateUnknownWordsPattern exPracticeKw :=
  ⟨by decide,
    claim_C10_practice_pattern_unanchored.1 exPracticeKw "the".toList
      ⟨"he".toList, 1, 3⟩ (by decide)⟩

end LinguaLens
